import Mathlib

/-!
Verification of the Huffman-coding core in `src/util.py` of the repository
Compress-and-Decompress-files.

Modelling conventions.

Bit streams are `List Bool` (`false` is the bit 0, `true` is the bit 1);
the reader consumes bits from the front of the list, and raising `EOFError`
is modelled by returning `none`.  The bit writer is modelled as a trace of
events (`WEvent`): each `writebit` call appends a bit event and each `flush`
call appends a flush event, so that statements about which writer operations
a function performs (in particular, whether it flushes) are expressible.
The byte stream actually produced by a writer trace is recovered by
`emitted`, which realises flush events as zero-padding to a byte boundary,
exactly as `bitio.BitWriter.flush` pads the incomplete final byte with 0
bits.

`util.py` imports two collaborator modules that are not part of the
repository: `bitio` (bit-granular I/O) and `huffman` (the tree type and
`make_encoding_table`).  Their behaviour is modelled from the spec
(sections 3, 4.4 and 6); each such definition carries a doc comment
starting with `Modelled from the spec:`.  Everything else is translated
directly from `src/util.py`.
-/

/-- Modelled from the spec: the Huffman tree data model of `huffman.py`
(section 3 of the spec).  `huffman.TreeBranch(left, right)` becomes
`HTree.branch`, and `huffman.TreeLeaf(value)` becomes `HTree.leaf` holding
`none` for the end-of-message marker (Python `None`) or `some v` for a
byte value `v`. -/
inductive HTree where
  | branch (left right : HTree)
  | leaf (value : Option Nat)
deriving DecidableEq

/-- Modelled from the spec: the 8-bit fixed-order (most significant bit
first) representation of a value, as written by `bitio.BitWriter.writebits
(value, 8)` (section 6 of the spec: one fixed bit order applied
consistently in both directions). -/
def natBits8 (v : Nat) : List Bool :=
  [v.testBit 7, v.testBit 6, v.testBit 5, v.testBit 4,
   v.testBit 3, v.testBit 2, v.testBit 1, v.testBit 0]

/-- The accumulator fold performed by `bitio.BitReader.readbits` over eight
bits: each step shifts the accumulator left and ors in the next bit. -/
def byteFold (b1 b2 b3 b4 b5 b6 b7 b8 : Bool) : Nat :=
  2 * (2 * (2 * (2 * (2 * (2 * (2 * (2 * 0 +
    cond b1 1 0) + cond b2 1 0) + cond b3 1 0) + cond b4 1 0) +
    cond b5 1 0) + cond b6 1 0) + cond b7 1 0) + cond b8 1 0

/-- Modelled from the spec: `bitio.BitReader.readbits(8)` (section 6).
Reads eight bits, most significant first; raises end-of-data (`none`) when
fewer than eight bits remain. -/
def readbits8 : List Bool → Option (Nat × List Bool)
  | b1 :: b2 :: b3 :: b4 :: b5 :: b6 :: b7 :: b8 :: rest =>
      some (byteFold b1 b2 b3 b4 b5 b6 b7 b8, rest)
  | _ => none

/-- An event in the trace of a `bitio.BitWriter`: a single written bit, or
a flush. -/
inductive WEvent where
  | wbit (b : Bool)
  | wflush
deriving DecidableEq

/-- Modelled from the spec: `bitio.BitWriter.writebit` appends one bit
event to the writer trace. -/
def writebit (w : List WEvent) (b : Bool) : List WEvent :=
  w ++ [WEvent.wbit b]

/-- Modelled from the spec: `bitio.BitWriter.writebits(v, 8)` writes the
eight bits of `v`, most significant first. -/
def writebits8 (w : List WEvent) (v : Nat) : List WEvent :=
  w ++ (natBits8 v).map WEvent.wbit

/-- Modelled from the spec: `bitio.BitWriter.flush` appends a flush event
to the writer trace. -/
def flushW (w : List WEvent) : List WEvent :=
  w ++ [WEvent.wflush]

/-- The bit stream realised by a writer trace, given the bits `acc`
already emitted: a bit event appends its bit, and a flush event pads the
bits emitted so far with 0 bits to a byte boundary (section 6 of the
spec: the final byte is zero-padded if the bit count is not a multiple
of 8). -/
def emittedFrom : List Bool → List WEvent → List Bool
  | acc, [] => acc
  | acc, WEvent.wbit b :: es => emittedFrom (acc ++ [b]) es
  | acc, WEvent.wflush :: es =>
      emittedFrom (acc ++ List.replicate ((8 - acc.length % 8) % 8) false) es

/-- The bit stream realised by a complete writer trace. -/
def emitted (es : List WEvent) : List Bool :=
  emittedFrom [] es

/-- The bits written by a trace, ignoring flush events. -/
def writtenBits (w : List WEvent) : List Bool :=
  w.filterMap (fun e => match e with
    | WEvent.wbit b => some b
    | WEvent.wflush => none)

/-- Fuel-indexed body of `read_tree` (`util.py` lines 6-51).  The fuel
only bounds the recursion depth; `read_tree` supplies `bits.length`, which
is always sufficient because every recursive call consumes at least one
bit first.  Reading bit 1 reads a left then a right subtree and builds a
branch; reading bits 0 0 yields the end-of-message leaf; reading bits 0 1
reads eight bits and yields a symbol leaf.  Running out of bits anywhere
is `EOFError`, modelled as `none`. -/
def readTreeF : Nat → List Bool → Option (HTree × List Bool)
  | 0, _ => none
  | _ + 1, [] => none
  | n + 1, true :: rest =>
      match readTreeF n rest with
      | none => none
      | some (l, r1) =>
        match readTreeF n r1 with
        | none => none
        | some (r, r2) => some (HTree.branch l r, r2)
  | _ + 1, false :: rest =>
      match rest with
      | [] => none
      | false :: rest2 => some (HTree.leaf none, rest2)
      | true :: rest2 =>
        match readbits8 rest2 with
        | none => none
        | some (v, rest3) => some (HTree.leaf (some v), rest3)

/-- `read_tree` from `util.py` (lines 6-51): parse a tree description from
the front of the bit stream, returning the tree and the unread remainder
of the stream, or `none` when `EOFError` is raised. -/
def read_tree (bits : List Bool) : Option (HTree × List Bool) :=
  readTreeF bits.length bits

/-- `decode_byte` from `util.py` (lines 55-85).  Starting at the root,
while the current node is a branch: read one bit (on `EOFError` break out
of the loop), descend left on 0 and right on 1, and if the node reached is
a leaf return its value.  A leaf root never enters the loop, and the
break on end-of-data falls off the end of the function; in both cases
Python returns `None`, modelled as a `none` first component.  The second
component is the unread remainder of the stream. -/
def decode_byte : HTree → List Bool → Option Nat × List Bool
  | HTree.leaf _, bits => (none, bits)
  | HTree.branch _ _, [] => (none, [])
  | HTree.branch (HTree.leaf v) _, false :: bits => (v, bits)
  | HTree.branch (HTree.branch l2 r2) _, false :: bits =>
      decode_byte (HTree.branch l2 r2) bits
  | HTree.branch _ (HTree.leaf v), true :: bits => (v, bits)
  | HTree.branch _ (HTree.branch l2 r2), true :: bits =>
      decode_byte (HTree.branch l2 r2) bits

/-- Fuel-indexed decode loop of `decompress` (`util.py` lines 108-119):
repeatedly call `decode_byte`; on `None` break, otherwise write the
decoded value as eight bits and continue.  `decompress` supplies fuel
`bits.length + 1`, which is always sufficient because every successful
`decode_byte` call consumes at least one bit. -/
def decodeLoopF : Nat → HTree → List Bool → List WEvent → List WEvent
  | 0, _, _, w => w
  | n + 1, tree, bits, w =>
      match decode_byte tree bits with
      | (some v, rest) => decodeLoopF n tree rest (writebits8 w v)
      | (none, _) => w

/-- `decompress` from `util.py` (lines 88-119): read a tree from the
compressed bit stream, then decode symbols and write each as eight bits
until `decode_byte` reports no value, and finally flush the output
writer.  An `EOFError` raised by `read_tree` propagates, modelled as
`none`. -/
def decompress (bits : List Bool) : Option (List WEvent) :=
  match read_tree bits with
  | none => none
  | some (tree, rest) =>
      some (flushW (decodeLoopF (rest.length + 1) tree rest []))

/-- The tree-description bit grammar exactly as the spec words it
(section 4.1): a branch is bit 1 followed by the serialisations of the
left then the right subtree; the end-marker leaf is bits 0 0; a symbol
leaf is bits 0 1 followed by the 8-bit representation of the symbol. -/
def writeTreeSpec : HTree → List Bool
  | HTree.branch l r => true :: (writeTreeSpec l ++ writeTreeSpec r)
  | HTree.leaf none => [false, false]
  | HTree.leaf (some v) => false :: true :: natBits8 v

/-- `write_tree` from `util.py` (lines 127-155), threading the writer
trace: a branch writes bit 1 then its left then right subtree; the
end-marker leaf writes bits 0 0; a symbol leaf writes bits 0 1 then the
symbol as eight bits.  It performs no flush. -/
def write_tree : HTree → List WEvent → List WEvent
  | HTree.branch l r, w => write_tree r (write_tree l (writebit w true))
  | HTree.leaf none, w => writebit (writebit w false) false
  | HTree.leaf (some v), w => writebits8 (writebit (writebit w false) true) v

/-- Modelled from the spec: `huffman.make_encoding_table` (section 4.4).
Traverses the tree accumulating the root-to-leaf path (0 for left, 1 for
right) and records an entry for every leaf carrying a concrete symbol;
the end-marker leaf gets no entry. -/
def make_encoding_table : HTree → List Bool → List (Nat × List Bool)
  | HTree.leaf none, _ => []
  | HTree.leaf (some v), path => [(v, path)]
  | HTree.branch l r, path =>
      make_encoding_table l (path ++ [false]) ++
      make_encoding_table r (path ++ [true])

/-- The multiset of concrete symbols at the leaves of a tree, in
left-to-right order: the alphabet the tree covers. -/
def alphabet : HTree → List Nat
  | HTree.leaf none => []
  | HTree.leaf (some v) => [v]
  | HTree.branch l r => alphabet l ++ alphabet r

/-- Well-formedness of a tree per the spec data model (section 3): every
leaf holds either the end marker or a byte value in [0, 255].  That every
branch has exactly two children is enforced by the `HTree` type itself. -/
def wellFormed : HTree → Bool
  | HTree.leaf none => true
  | HTree.leaf (some v) => v < 256
  | HTree.branch l r => wellFormed l && wellFormed r

/-- The leaf reached from the root by always descending left (bit 0) is
the end-of-message marker.  This is the condition under which the fixed
2-bit terminator 0 0 written by `compress`, together with the zero
padding added by flush, is decoded as the end marker. -/
def leftmostEndMarker : HTree → Bool
  | HTree.leaf none => true
  | HTree.leaf (some _) => false
  | HTree.branch l _ => leftmostEndMarker l

/-- Walk a tree along a bit path; `some v` when the path leads exactly to
a leaf holding `v`. -/
def leafPath : HTree → List Bool → Option (Option Nat)
  | HTree.leaf v, [] => some v
  | HTree.branch l _, false :: q => leafPath l q
  | HTree.branch _ r, true :: q => leafPath r q
  | HTree.leaf _, _ :: _ => none
  | HTree.branch _ _, [] => none

/-- The bit stream ends strictly during the descent of `decode_byte`:
starting from the root, every available bit is consumed while the current
node is still a branch and no leaf is ever reached. -/
def exhaustsMidDescent : HTree → List Bool → Bool
  | HTree.leaf _, _ => false
  | HTree.branch _ _, [] => true
  | HTree.branch (HTree.leaf _) _, false :: _ => false
  | HTree.branch (HTree.branch l2 r2) _, false :: bits =>
      exhaustsMidDescent (HTree.branch l2 r2) bits
  | HTree.branch _ (HTree.leaf _), true :: _ => false
  | HTree.branch _ (HTree.branch l2 r2), true :: bits =>
      exhaustsMidDescent (HTree.branch l2 r2) bits

/-- The concatenation of the table codes of the input bytes, in input
order; `none` as soon as some byte has no table entry.  Pure counterpart
of the encoding loop of `compress`, used to state its behaviour. -/
def encodePayload (table : List (Nat × List Bool)) : List Nat → Option (List Bool)
  | [] => some []
  | b :: bs =>
      match List.lookup b table with
      | none => none
      | some code => (encodePayload table bs).map (fun p => code ++ p)

/-- The encoding loop of `compress` (`util.py` lines 183-198), threading
the writer trace: for each input byte, look up its code (Python raises
`KeyError`, modelled as `none`, when the byte is absent) and write each
code bit; when the input is exhausted, write the two terminator bits 0 0
directly and stop. -/
def encodeLoop (table : List (Nat × List Bool)) : List Nat → List WEvent → Option (List WEvent)
  | [], w => some (writebit (writebit w false) false)
  | b :: bs, w =>
      match List.lookup b table with
      | none => none
      | some code => encodeLoop table bs (List.foldl writebit w code)

/-- `compress` from `util.py` (lines 159-200): write the tree description,
build the encoding table, encode every input byte (the input file is
modelled as its list of byte values, each read by `readbits(8)`), write
the 2-bit terminator, and flush.  A `KeyError` from the table lookup
propagates, modelled as `none`. -/
def compress (tree : HTree) (input : List Nat) : Option (List WEvent) :=
  match encodeLoop (make_encoding_table tree []) input (write_tree tree []) with
  | none => none
  | some w2 => some (flushW w2)

/-- The concatenated 8-bit representations of a list of byte values. -/
def bytesBits : List Nat → List Bool
  | [] => []
  | v :: vs => natBits8 v ++ bytesBits vs

/-- The trace of writing each byte value of a list with `writebits8`. -/
def bytesEvents : List Nat → List WEvent
  | [] => []
  | v :: vs => (natBits8 v).map WEvent.wbit ++ bytesEvents vs

/-- Group a bit stream into bytes, eight bits at a time (most significant
first), dropping an incomplete final group: the byte file realised by a
bit stream. -/
def bytesOf : List Bool → List Nat
  | b1 :: b2 :: b3 :: b4 :: b5 :: b6 :: b7 :: b8 :: rest =>
      byteFold b1 b2 b3 b4 b5 b6 b7 b8 :: bytesOf rest
  | _ => []

/-- The full pipeline: compress the input with the given tree, feed the
emitted byte stream to `decompress`, and read the decompressed output as
a list of bytes.  `none` when either direction raises. -/
def roundTrip (tree : HTree) (input : List Nat) : Option (List Nat) :=
  match compress tree input with
  | none => none
  | some ctr =>
      match decompress (emitted ctr) with
      | none => none
      | some dtr => some (bytesOf (emitted dtr))

/-- A tree covering the alphabet 65, 66 whose leftmost leaf is not the end
marker: used to exhibit failures of the round-trip claims. -/
def tree0 : HTree :=
  HTree.branch (HTree.leaf (some 65)) (HTree.leaf (some 66))

/-- A tree with the end marker as left child and the symbol 65 as right
child: a well-formed tree on which the round trip succeeds. -/
def tree1 : HTree :=
  HTree.branch (HTree.leaf none) (HTree.leaf (some 65))

/-- A deeper tree whose left subtree is itself a branch: used to witness
end-of-data in the middle of a `decode_byte` descent. -/
def tree2 : HTree :=
  HTree.branch (HTree.branch (HTree.leaf none) (HTree.leaf (some 65)))
    (HTree.leaf (some 66))

set_option maxRecDepth 8000

theorem byteFold_natBits8 : ∀ v : Nat, v < 256 →
    byteFold (v.testBit 7) (v.testBit 6) (v.testBit 5) (v.testBit 4)
      (v.testBit 3) (v.testBit 2) (v.testBit 1) (v.testBit 0) = v := by
  decide

theorem natBits8_byteFold : ∀ b1 b2 b3 b4 b5 b6 b7 b8 : Bool,
    natBits8 (byteFold b1 b2 b3 b4 b5 b6 b7 b8) = [b1, b2, b3, b4, b5, b6, b7, b8] ∧
      byteFold b1 b2 b3 b4 b5 b6 b7 b8 < 256 := by
  decide

theorem readbits8_natBits8 (v : Nat) (hv : v < 256) (rest : List Bool) :
    readbits8 (natBits8 v ++ rest) = some (v, rest) := by
  show readbits8 (v.testBit 7 :: v.testBit 6 :: v.testBit 5 :: v.testBit 4 ::
    v.testBit 3 :: v.testBit 2 :: v.testBit 1 :: v.testBit 0 :: rest) = some (v, rest)
  rw [readbits8, byteFold_natBits8 v hv]

theorem readbits8_inv (bits : List Bool) (v : Nat) (rest : List Bool)
    (h : readbits8 bits = some (v, rest)) :
    bits = natBits8 v ++ rest ∧ v < 256 := by
  rcases bits with _ | ⟨b1, _ | ⟨b2, _ | ⟨b3, _ | ⟨b4, _ | ⟨b5, _ | ⟨b6, _ | ⟨b7, _ | ⟨b8, tail⟩⟩⟩⟩⟩⟩⟩⟩
  case nil => exact Option.noConfusion h
  case cons.nil => exact Option.noConfusion h
  case cons.cons.nil => exact Option.noConfusion h
  case cons.cons.cons.nil => exact Option.noConfusion h
  case cons.cons.cons.cons.nil => exact Option.noConfusion h
  case cons.cons.cons.cons.cons.nil => exact Option.noConfusion h
  case cons.cons.cons.cons.cons.cons.nil => exact Option.noConfusion h
  case cons.cons.cons.cons.cons.cons.cons.nil => exact Option.noConfusion h
  have h2 : (byteFold b1 b2 b3 b4 b5 b6 b7 b8, tail) = (v, rest) := Option.some.inj h
  obtain ⟨hv, hr⟩ := Prod.mk.inj h2
  subst hv hr
  obtain ⟨hn, hlt⟩ := natBits8_byteFold b1 b2 b3 b4 b5 b6 b7 b8
  exact ⟨by rw [hn]; rfl, hlt⟩

theorem writtenBits_nil : writtenBits [] = [] := rfl

theorem writtenBits_map_wbit (bits : List Bool) (w : List WEvent) :
    writtenBits (bits.map WEvent.wbit ++ w) = bits ++ writtenBits w := by
  induction bits with
  | nil => rfl
  | cons b bs ih => simpa [writtenBits] using ih

theorem foldl_writebit (code : List Bool) (w : List WEvent) :
    List.foldl writebit w code = w ++ code.map WEvent.wbit := by
  induction code generalizing w with
  | nil => simp
  | cons c cs ih => simp [writebit, ih]

theorem emittedFrom_wbits (bits : List Bool) (acc : List Bool) (es : List WEvent) :
    emittedFrom acc (bits.map WEvent.wbit ++ es) = emittedFrom (acc ++ bits) es := by
  induction bits generalizing acc with
  | nil => simp
  | cons b bs ih => simpa [emittedFrom] using ih (acc ++ [b]) ▸ by simp [emittedFrom]

theorem emitted_wbits_flush (bits : List Bool) :
    emitted (bits.map WEvent.wbit ++ [WEvent.wflush]) =
      bits ++ List.replicate ((8 - bits.length % 8) % 8) false := by
  show emittedFrom [] (bits.map WEvent.wbit ++ [WEvent.wflush]) = _
  rw [emittedFrom_wbits bits [] [WEvent.wflush]]
  simp [emittedFrom]

theorem count_wflush_map_wbit (bits : List Bool) :
    (bits.map WEvent.wbit).count WEvent.wflush = 0 := by
  rw [List.count_eq_zero]
  simp

theorem write_tree_eq (t : HTree) (w : List WEvent) :
    write_tree t w = w ++ (writeTreeSpec t).map WEvent.wbit := by
  induction t generalizing w with
  | branch l r ihl ihr =>
      simp [write_tree, writeTreeSpec, writebit, ihl, ihr]
  | leaf v =>
      cases v with
      | none => simp [write_tree, writeTreeSpec, writebit]
      | some x => simp [write_tree, writeTreeSpec, writebit, writebits8]

theorem readTreeF_sound (t : HTree) (hwf : wellFormed t = true) :
    ∀ (n : Nat) (rest : List Bool), (writeTreeSpec t).length ≤ n →
      readTreeF n (writeTreeSpec t ++ rest) = some (t, rest) := by
  induction t with
  | leaf v =>
      intro n rest hn
      cases v with
      | none =>
          match n, hn with
          | m + 1, _ => rfl
      | some x =>
          have hx : x < 256 := by simpa [wellFormed] using hwf
          match n, hn with
          | m + 1, _ =>
              show readTreeF (m + 1) (false :: true :: (natBits8 x ++ rest)) = _
              simp [readTreeF, readbits8_natBits8 x hx rest]
  | branch l r ihl ihr =>
      intro n rest hn
      have hwl : wellFormed l = true := by
        have := hwf; simp [wellFormed, Bool.and_eq_true] at this; exact this.1
      have hwr : wellFormed r = true := by
        have := hwf; simp [wellFormed, Bool.and_eq_true] at this; exact this.2
      match n, hn with
      | m + 1, hn =>
          have hlen : (writeTreeSpec l).length + (writeTreeSpec r).length ≤ m := by
            have := hn
            simp [writeTreeSpec, List.length_append] at this
            omega
          have e1 := ihl hwl m (writeTreeSpec r ++ rest) (by omega)
          have e2 := ihr hwr m rest (by omega)
          show readTreeF (m + 1) (true :: ((writeTreeSpec l ++ writeTreeSpec r) ++ rest)) = _
          rw [List.append_assoc]
          show (match readTreeF m (writeTreeSpec l ++ (writeTreeSpec r ++ rest)) with
                | none => none
                | some (l2, r1) =>
                  match readTreeF m r1 with
                  | none => none
                  | some (r2, r3) => some (HTree.branch l2 r2, r3)) =
              some (HTree.branch l r, rest)
          rw [e1]
          show (match readTreeF m (writeTreeSpec r ++ rest) with
                | none => none
                | some (r2, r3) => some (HTree.branch l r2, r3)) =
              some (HTree.branch l r, rest)
          rw [e2]

theorem read_tree_writeTreeSpec (t : HTree) (hwf : wellFormed t = true)
    (rest : List Bool) :
    read_tree (writeTreeSpec t ++ rest) = some (t, rest) := by
  exact readTreeF_sound t hwf (writeTreeSpec t ++ rest).length rest
    (by simp [List.length_append])

theorem readTreeF_complete :
    ∀ (n : Nat) (bits : List Bool) (t : HTree) (rest : List Bool),
      readTreeF n bits = some (t, rest) →
      bits = writeTreeSpec t ++ rest ∧ wellFormed t = true := by
  intro n
  induction n with
  | zero => intro bits t rest h; exact Option.noConfusion h
  | succ m ih =>
      intro bits t rest h
      rcases bits with _ | ⟨b, bits0⟩
      · exact Option.noConfusion h
      cases b
      · -- first bit 0: a leaf
        rcases bits0 with _ | ⟨b2, bits1⟩
        · exact Option.noConfusion h
        cases b2
        · -- bits 0 0: the end-marker leaf
          obtain ⟨ht, hr⟩ := Prod.mk.inj
            (Option.some.inj (h : some (HTree.leaf none, bits1) = some (t, rest)))
          subst ht; subst hr
          exact ⟨rfl, rfl⟩
        · -- bits 0 1: a symbol leaf
          have hunf : readTreeF (m + 1) (false :: true :: bits1) =
              (match readbits8 bits1 with
               | none => none
               | some (v, rest3) => some (HTree.leaf (some v), rest3)) := rfl
          rw [hunf] at h
          cases h4 : readbits8 bits1 with
          | none => rw [h4] at h; exact Option.noConfusion h
          | some pr =>
              obtain ⟨v, rest3⟩ := pr
              rw [h4] at h
              obtain ⟨ht, hr⟩ := Prod.mk.inj (Option.some.inj h)
              subst ht; subst hr
              obtain ⟨hb, hv⟩ := readbits8_inv bits1 v _ h4
              subst hb
              refine ⟨rfl, ?_⟩
              simp [wellFormed, hv]
      · -- first bit 1: a branch
        have hunf : readTreeF (m + 1) (true :: bits0) =
            (match readTreeF m bits0 with
             | none => none
             | some (l2, r1) =>
               match readTreeF m r1 with
               | none => none
               | some (r2, r3) => some (HTree.branch l2 r2, r3)) := rfl
        rw [hunf] at h
        cases h1 : readTreeF m bits0 with
        | none => rw [h1] at h; exact Option.noConfusion h
        | some lr =>
            obtain ⟨l, r1⟩ := lr
            rw [h1] at h
            have h5 : (match readTreeF m r1 with
                | none => none
                | some (r2, r3) => some (HTree.branch l r2, r3)) = some (t, rest) := h
            cases h2 : readTreeF m r1 with
            | none => rw [h2] at h5; exact Option.noConfusion h5
            | some rr =>
                obtain ⟨r, r2⟩ := rr
                rw [h2] at h5
                obtain ⟨ht, hr⟩ := Prod.mk.inj (Option.some.inj h5)
                subst ht; subst hr
                obtain ⟨hb1, hw1⟩ := ih bits0 l r1 h1
                obtain ⟨hb2, hw2⟩ := ih r1 r r2 h2
                subst hb2; subst hb1
                constructor
                · simp [writeTreeSpec]
                · simp [wellFormed, hw1, hw2]

theorem read_tree_complete (bits : List Bool) (t : HTree) (rest : List Bool)
    (h : read_tree bits = some (t, rest)) :
    bits = writeTreeSpec t ++ rest ∧ wellFormed t = true :=
  readTreeF_complete bits.length bits t rest h

theorem lookup_mem_table (l : List (Nat × List Bool)) (b : Nat) (c : List Bool)
    (h : List.lookup b l = some c) : (b, c) ∈ l := by
  induction l with
  | nil => exact Option.noConfusion h
  | cons kv l ih =>
      obtain ⟨k, v⟩ := kv
      rw [List.lookup] at h
      by_cases hk : b = k
      · subst hk
        simp at h
        subst h
        exact List.mem_cons_self _ _
      · have : (b == k) = false := beq_eq_false_iff_ne.mpr hk
        rw [this] at h
        exact List.mem_cons_of_mem _ (ih h)

theorem lookup_append (b : Nat) (l1 l2 : List (Nat × List Bool)) :
    List.lookup b (l1 ++ l2) =
      (match List.lookup b l1 with
       | some c => some c
       | none => List.lookup b l2) := by
  induction l1 with
  | nil => simp [List.lookup]
  | cons kv l ih =>
      obtain ⟨k, v⟩ := kv
      by_cases hk : b = k
      · subst hk; simp [List.lookup]
      · have hb : (b == k) = false := beq_eq_false_iff_ne.mpr hk
        simp [List.lookup, hb, ih]

theorem lookup_cover (t : HTree) (b : Nat) :
    ∀ path : List Bool, b ∈ alphabet t →
      (List.lookup b (make_encoding_table t path)).isSome := by
  induction t with
  | leaf v =>
      intro path hb
      cases v with
      | none => simp [alphabet] at hb
      | some x =>
          have : b = x := by simpa [alphabet] using hb
          subst this
          simp [make_encoding_table, List.lookup]
  | branch l r ihl ihr =>
      intro path hb
      rw [make_encoding_table, lookup_append]
      rcases List.mem_append.mp (by simpa [alphabet] using hb) with hl | hr2
      · have hs := ihl (path ++ [false]) hl
        cases hlk : List.lookup b (make_encoding_table l (path ++ [false])) with
        | none => rw [hlk] at hs; exact Bool.noConfusion hs
        | some c => rfl
      · cases hlk : List.lookup b (make_encoding_table l (path ++ [false])) with
        | none => exact ihr (path ++ [true]) hr2
        | some c => rfl

theorem mem_encoding_table (t : HTree) (b : Nat) (code : List Bool) :
    ∀ path : List Bool, (b, code) ∈ make_encoding_table t path →
      ∃ q, code = path ++ q ∧ leafPath t q = some (some b) := by
  induction t with
  | leaf v =>
      intro path h
      cases v with
      | none => simp [make_encoding_table] at h
      | some x =>
          have : b = x ∧ code = path := by simpa [make_encoding_table] using h
          obtain ⟨hb, hc⟩ := this
          subst hb; subst hc
          exact ⟨[], by simp, rfl⟩
  | branch l r ihl ihr =>
      intro path h
      rw [make_encoding_table] at h
      rcases List.mem_append.mp h with hl | hr2
      · obtain ⟨q, hq, hp⟩ := ihl (path ++ [false]) hl
        exact ⟨false :: q, by simpa using hq, by simpa [leafPath] using hp⟩
      · obtain ⟨q, hq, hp⟩ := ihr (path ++ [true]) hr2
        exact ⟨true :: q, by simpa using hq, by simpa [leafPath] using hp⟩

theorem alphabet_lt (t : HTree) (hwf : wellFormed t = true) (b : Nat)
    (hb : b ∈ alphabet t) : b < 256 := by
  induction t with
  | leaf v =>
      cases v with
      | none => simp [alphabet] at hb
      | some x =>
          have : b = x := by simpa [alphabet] using hb
          subst this
          simpa [wellFormed] using hwf
  | branch l r ihl ihr =>
      rw [wellFormed, Bool.and_eq_true] at hwf
      rcases List.mem_append.mp (by simpa [alphabet] using hb) with hl | hr2
      · exact ihl hwf.1 hl
      · exact ihr hwf.2 hr2

theorem decode_byte_leafPath :
    ∀ (q : List Bool) (t : HTree) (v : Option Nat) (rest : List Bool),
      leafPath t q = some v → q ≠ [] →
      decode_byte t (q ++ rest) = (v, rest) := by
  intro q
  induction q with
  | nil => intro t v rest _ hne; exact absurd rfl hne
  | cons c q0 ih =>
      intro t v rest hlp _
      cases t with
      | leaf w => cases c <;> exact Option.noConfusion hlp
      | branch l r =>
          cases c
          · -- bit 0: descend left
            rw [leafPath] at hlp
            cases q0 with
            | nil =>
                cases l with
                | leaf w =>
                    have hw : w = v := Option.some.inj hlp
                    subst hw
                    simp [decode_byte]
                | branch l2 r2 => exact Option.noConfusion hlp
            | cons c2 q1 =>
                cases l with
                | leaf w => cases c2 <;> exact Option.noConfusion hlp
                | branch l2 r2 =>
                    have hrec := ih (HTree.branch l2 r2) v rest hlp (by simp)
                    simpa [decode_byte] using hrec
          · -- bit 1: descend right
            rw [leafPath] at hlp
            cases q0 with
            | nil =>
                cases r with
                | leaf w =>
                    have hw : w = v := Option.some.inj hlp
                    subst hw
                    simp [decode_byte]
                | branch l2 r2 => exact Option.noConfusion hlp
            | cons c2 q1 =>
                cases r with
                | leaf w => cases c2 <;> exact Option.noConfusion hlp
                | branch l2 r2 =>
                    have hrec := ih (HTree.branch l2 r2) v rest hlp (by simp)
                    simpa [decode_byte] using hrec

theorem decode_byte_zeros (t : HTree) (hlm : leftmostEndMarker t = true) :
    ∀ m : Nat, (decode_byte t (List.replicate m false)).1 = none := by
  induction t with
  | leaf v => intro m; rfl
  | branch l r ihl ihr =>
      intro m
      cases m with
      | zero => simp [decode_byte]
      | succ m0 =>
          rw [List.replicate_succ]
          cases l with
          | leaf w =>
              cases w with
              | none => simp [decode_byte]
              | some x => exact Bool.noConfusion hlm
          | branch l2 r2 =>
              have hrec := ihl hlm m0
              simpa [decode_byte] using hrec

theorem decode_byte_exhausts (t : HTree) :
    ∀ bits : List Bool, exhaustsMidDescent t bits = true →
      decode_byte t bits = (none, []) := by
  induction t with
  | leaf v => intro bits h; exact Bool.noConfusion h
  | branch l r ihl ihr =>
      intro bits h
      cases bits with
      | nil => simp [decode_byte]
      | cons b bits0 =>
          cases b
          · cases l with
            | leaf w => simp [exhaustsMidDescent] at h
            | branch l2 r2 =>
                have hrec := ihl bits0 (by simpa [exhaustsMidDescent] using h)
                simpa [decode_byte] using hrec
          · cases r with
            | leaf w => simp [exhaustsMidDescent] at h
            | branch l2 r2 =>
                have hrec := ihr bits0 (by simpa [exhaustsMidDescent] using h)
                simpa [decode_byte] using hrec

theorem encodeLoop_eq (table : List (Nat × List Bool)) :
    ∀ (bs : List Nat) (w : List WEvent),
      encodeLoop table bs w =
        (encodePayload table bs).map
          (fun p => w ++ p.map WEvent.wbit ++ [WEvent.wbit false, WEvent.wbit false]) := by
  intro bs
  induction bs with
  | nil => intro w; simp [encodeLoop, encodePayload, writebit]
  | cons b bs ih =>
      intro w
      rw [encodeLoop, encodePayload]
      cases List.lookup b table with
      | none => rfl
      | some code =>
          show encodeLoop table bs (List.foldl writebit w code) =
            Option.map (fun p => w ++ p.map WEvent.wbit ++ [WEvent.wbit false, WEvent.wbit false])
              (Option.map (fun p => code ++ p) (encodePayload table bs))
          rw [ih (List.foldl writebit w code)]
          cases encodePayload table bs with
          | none => rfl
          | some p => simp [foldl_writebit]

theorem compress_some (tree : HTree) (input : List Nat) (p : List Bool)
    (hp : encodePayload (make_encoding_table tree []) input = some p) :
    compress tree input =
      some ((writeTreeSpec tree ++ p ++ [false, false]).map WEvent.wbit ++
        [WEvent.wflush]) := by
  rw [compress, encodeLoop_eq, hp]
  simp [flushW, write_tree_eq, writebit]

theorem compress_none (tree : HTree) (input : List Nat)
    (hp : encodePayload (make_encoding_table tree []) input = none) :
    compress tree input = none := by
  rw [compress, encodeLoop_eq, hp]
  rfl

theorem encodePayload_isSome (table : List (Nat × List Bool)) :
    ∀ input : List Nat, (∀ b ∈ input, (List.lookup b table).isSome) →
      ∃ p, encodePayload table input = some p := by
  intro input
  induction input with
  | nil => intro _; exact ⟨[], rfl⟩
  | cons b bs ih =>
      intro hc
      have hb := hc b (List.mem_cons_self b bs)
      cases hlk : List.lookup b table with
      | none => rw [hlk] at hb; exact Bool.noConfusion hb
      | some code =>
          obtain ⟨p, hp⟩ := ih (fun x hx => hc x (List.mem_cons_of_mem b hx))
          exact ⟨code ++ p, by rw [encodePayload, hlk, hp]; rfl⟩

theorem encodePayload_none (table : List (Nat × List Bool)) (b : Nat) :
    ∀ input : List Nat, b ∈ input → List.lookup b table = none →
      encodePayload table input = none := by
  intro input
  induction input with
  | nil => intro hb; exact absurd hb (List.not_mem_nil b)
  | cons x bs ih =>
      intro hb hlk
      rcases List.mem_cons.mp hb with hx | hx
      · subst hx
        rw [encodePayload, hlk]
      · rw [encodePayload]
        cases List.lookup x table with
        | none => rfl
        | some code => rw [ih hx hlk]; rfl

theorem bytesBits_length (l : List Nat) : (bytesBits l).length = 8 * l.length := by
  induction l with
  | nil => rfl
  | cons v vs ih =>
      rw [bytesBits, List.length_append, ih]
      show 8 + 8 * vs.length = 8 * (vs.length + 1)
      omega

theorem bytesOf_bytesBits : ∀ l : List Nat, (∀ v ∈ l, v < 256) →
    bytesOf (bytesBits l) = l := by
  intro l
  induction l with
  | nil => intro _; rfl
  | cons v vs ih =>
      intro hv
      have hv0 : v < 256 := hv v (List.mem_cons_self v vs)
      show bytesOf (natBits8 v ++ bytesBits vs) = v :: vs
      rw [show natBits8 v ++ bytesBits vs =
        v.testBit 7 :: v.testBit 6 :: v.testBit 5 :: v.testBit 4 ::
        v.testBit 3 :: v.testBit 2 :: v.testBit 1 :: v.testBit 0 ::
        bytesBits vs from rfl]
      rw [bytesOf, byteFold_natBits8 v hv0, ih (fun x hx => hv x (List.mem_cons_of_mem v hx))]

theorem bytesEvents_eq (l : List Nat) :
    bytesEvents l = (bytesBits l).map WEvent.wbit := by
  induction l with
  | nil => rfl
  | cons v vs ih => simp [bytesEvents, bytesBits, ih]

theorem decodeLoopF_stop (tree : HTree) (bits : List Bool) (n : Nat)
    (w : List WEvent) (h : (decode_byte tree bits).1 = none) :
    decodeLoopF (n + 1) tree bits w = w := by
  rw [decodeLoopF]
  cases hd : decode_byte tree bits with
  | mk o rest =>
      rw [hd] at h
      cases o with
      | none => rfl
      | some v => exact Option.noConfusion h

theorem decodeLoop_payload (tree : HTree) (hlm : leftmostEndMarker tree = true) :
    ∀ (bs : List Nat) (p : List Bool) (m n : Nat) (w : List WEvent),
      encodePayload (make_encoding_table tree []) bs = some p →
      (p ++ List.replicate m false).length < n →
      decodeLoopF n tree (p ++ List.replicate m false) w = w ++ bytesEvents bs := by
  intro bs
  induction bs with
  | nil =>
      intro p m n w hp hn
      have hp0 : ([] : List Bool) = p := Option.some.inj hp
      subst hp0
      cases n with
      | zero => exact absurd hn (Nat.not_lt_zero _)
      | succ n0 =>
          rw [List.nil_append]
          rw [decodeLoopF_stop tree (List.replicate m false) n0 w
            (decode_byte_zeros tree hlm m)]
          simp [bytesEvents]
  | cons b bs ih =>
      intro p m n w hp hn
      rw [encodePayload] at hp
      cases hlk : List.lookup b (make_encoding_table tree []) with
      | none => rw [hlk] at hp; exact Option.noConfusion hp
      | some code =>
          rw [hlk] at hp
          have hp2 : Option.map (fun x => code ++ x)
              (encodePayload (make_encoding_table tree []) bs) = some p := hp
          cases hps : encodePayload (make_encoding_table tree []) bs with
          | none => rw [hps] at hp2; exact Option.noConfusion hp2
          | some p2 =>
              rw [hps] at hp2
              have hpe : code ++ p2 = p := Option.some.inj hp2
              subst hpe
              obtain ⟨q, hq, hlf⟩ := mem_encoding_table tree b code []
                (lookup_mem_table _ b code hlk)
              rw [List.nil_append] at hq
              subst hq
              have hqne : code ≠ [] := by
                intro h0
                subst h0
                cases tree with
                | leaf v =>
                    have hv : v = some b := Option.some.inj hlf
                    subst hv
                    exact Bool.noConfusion hlm
                | branch l r => exact Option.noConfusion hlf
              have hd : decode_byte tree ((code ++ p2) ++ List.replicate m false) =
                  (some b, p2 ++ List.replicate m false) := by
                rw [List.append_assoc]
                exact decode_byte_leafPath code tree (some b) _ hlf hqne
              cases n with
              | zero => exact absurd hn (Nat.not_lt_zero _)
              | succ n0 =>
                  rw [decodeLoopF, hd]
                  show decodeLoopF n0 tree (p2 ++ List.replicate m false) (writebits8 w b) =
                    w ++ bytesEvents (b :: bs)
                  have hq1 : 1 ≤ code.length := by
                    cases code with
                    | nil => exact absurd rfl hqne
                    | cons c cs => simp
                  have hlen : (p2 ++ List.replicate m false).length < n0 := by
                    have hn2 := hn
                    simp [List.length_append] at hn2 ⊢
                    omega
                  rw [ih p2 m n0 (writebits8 w b) hps hlen]
                  simp [writebits8, bytesEvents, List.append_assoc]

theorem roundTrip_correct (tree : HTree) (input : List Nat)
    (hwf : wellFormed tree = true) (hlm : leftmostEndMarker tree = true)
    (hcov : ∀ b ∈ input, b ∈ alphabet tree) :
    roundTrip tree input = some input := by
  obtain ⟨p, hp⟩ := encodePayload_isSome (make_encoding_table tree []) input
    (fun b hb => lookup_cover tree b [] (hcov b hb))
  have hcomp := compress_some tree input p hp
  set B := writeTreeSpec tree ++ p ++ [false, false] with hB
  set k := (8 - B.length % 8) % 8 with hk
  have hemit : emitted (B.map WEvent.wbit ++ [WEvent.wflush]) =
      B ++ List.replicate k false := emitted_wbits_flush B
  have hstream : B ++ List.replicate k false =
      writeTreeSpec tree ++ (p ++ List.replicate (2 + k) false) := by
    rw [hB, List.replicate_add]
    simp [List.append_assoc]
  have hrt : read_tree (B ++ List.replicate k false) =
      some (tree, p ++ List.replicate (2 + k) false) := by
    rw [hstream]
    exact read_tree_writeTreeSpec tree hwf _
  have hloop : decodeLoopF ((p ++ List.replicate (2 + k) false).length + 1) tree
      (p ++ List.replicate (2 + k) false) [] = [] ++ bytesEvents input :=
    decodeLoop_payload tree hlm input p (2 + k) _ [] hp (Nat.lt_succ_self _)
  have hdec : decompress (B ++ List.replicate k false) =
      some (flushW (bytesEvents input)) := by
    simp only [decompress]
    rw [hrt]
    show some (flushW (decodeLoopF ((p ++ List.replicate (2 + k) false).length + 1) tree
      (p ++ List.replicate (2 + k) false) [])) = some (flushW (bytesEvents input))
    rw [hloop]
    rw [List.nil_append]
  have hall : ∀ v ∈ input, v < 256 := fun v hv => alphabet_lt tree hwf v (hcov v hv)
  have hbytes : bytesOf (emitted (flushW (bytesEvents input))) = input := by
    rw [flushW, bytesEvents_eq, emitted_wbits_flush]
    have hlen : (bytesBits input).length % 8 = 0 := by
      rw [bytesBits_length]; omega
    rw [hlen]
    simp [bytesOf_bytesBits input hall]
  simp only [roundTrip]
  rw [hcomp]
  show (match decompress (emitted (B.map WEvent.wbit ++ [WEvent.wflush])) with
        | none => none
        | some dtr => some (bytesOf (emitted dtr))) = some input
  rw [hemit, hdec]
  show some (bytesOf (emitted (flushW (bytesEvents input)))) = some input
  rw [hbytes]

/-- C1 (amended): for every well-formed tree whose leftmost leaf (reached
by always descending left from the root) is the end-of-message marker, and
every sequence of bytes all drawn from the tree's alphabet, decompressing
the stream produced by compress reproduces the byte sequence exactly, and
the decompressed output length equals the original input length.  (As
originally stated, for an arbitrary covering tree, the claim is false: see
the counterexample.) -/
theorem c1_round_trip (tree : HTree) (input : List Nat)
    (hwf : wellFormed tree = true) (hlm : leftmostEndMarker tree = true)
    (hcov : ∀ b ∈ input, b ∈ alphabet tree) :
    roundTrip tree input = some input ∧
      ∀ out, roundTrip tree input = some out → out.length = input.length := by
  have h := roundTrip_correct tree input hwf hlm hcov
  refine ⟨h, ?_⟩
  intro out hout
  rw [h] at hout
  have he : input = out := Option.some.inj hout
  rw [← he]

/-- Witness for c1_round_trip: the tree with the end marker on the left
and symbol 65 on the right round-trips the input [65, 65]. -/
theorem c1_round_trip_witness :
    wellFormed tree1 = true ∧ leftmostEndMarker tree1 = true ∧
      (65 : Nat) ∈ alphabet tree1 ∧ roundTrip tree1 [65, 65] = some [65, 65] :=
  ⟨by decide, by decide, by decide,
    (c1_round_trip tree1 [65, 65] (by decide) (by decide) (by decide)).1⟩

/-- C1 counterexample: tree0 is a well-formed tree covering the alphabet
65, 66, yet compressing the single byte 65 and decompressing the result
yields [65, 65, 65], not [65]: the terminator bits 0 0 and the flush
padding are decoded as further occurrences of symbol 65 because tree0
contains no end-marker leaf on its all-zeros path. -/
theorem c1_counterexample :
    (65 : Nat) ∈ alphabet tree0 ∧ wellFormed tree0 = true ∧
      roundTrip tree0 [65] = some [65, 65, 65] ∧
      roundTrip tree0 [65] ≠ some [65] :=
  ⟨by decide, by decide, by decide, by decide⟩

/-- C2: for every well-formed tree (symbols in [0, 255]; the type already
guarantees every branch has exactly two children), read_tree applied to
the bit stream produced by write_tree returns a tree equal to the
original and leaves the reader positioned at the first bit after the tree
description. -/
theorem c2_tree_round_trip (t : HTree) (hwf : wellFormed t = true)
    (rest : List Bool) :
    read_tree (writtenBits (write_tree t []) ++ rest) = some (t, rest) := by
  have hwt : writtenBits (write_tree t []) = writeTreeSpec t := by
    rw [write_tree_eq, List.nil_append]
    simpa [writtenBits_nil] using writtenBits_map_wbit (writeTreeSpec t) []
  rw [hwt]
  exact read_tree_writeTreeSpec t hwf rest

/-- Witness for c2_tree_round_trip at tree1 with an empty trailing
stream. -/
theorem c2_tree_round_trip_witness :
    wellFormed tree1 = true ∧
      read_tree (writtenBits (write_tree tree1 []) ++ []) = some (tree1, []) :=
  ⟨by decide, c2_tree_round_trip tree1 (by decide) []⟩

/-- C3 counterexample: on a tree whose root is the single leaf holding
symbol 65, decode_byte returns no value (the Python function falls
through its while loop and returns None), not the leaf's symbol value 65
as the claim states. -/
theorem c3_counterexample :
    decode_byte (HTree.leaf (some 65)) [] = (none, []) ∧
      decode_byte (HTree.leaf (some 65)) [] ≠ (some 65, []) :=
  ⟨by decide, by decide⟩

/-- C3 (amended): for every tree whose root is a single leaf and every
reader state, decode_byte reads no bits (the reader is returned
unchanged) and returns no value (None) regardless of the leaf's symbol;
this coincides with the leaf's stored value only for the end-marker
leaf. -/
theorem c3_leaf_decode (v : Option Nat) (bits : List Bool) :
    decode_byte (HTree.leaf v) bits = (none, bits) := by
  simp [decode_byte]

/-- C4: whenever the encoding loop of compress exhausts its input (every
input byte has a table code, concatenating to payload p), compress emits
the tree description, the payload, then exactly the fixed 2-bit
end-marker code 0 0 written directly (not via table lookup), and then
flushes exactly once; the emitted stream is those bits zero-padded to a
byte boundary, with nothing after the terminator but that padding. -/
theorem c4_terminator_and_flush (tree : HTree) (input : List Nat) (p : List Bool)
    (hp : encodePayload (make_encoding_table tree []) input = some p) :
    compress tree input =
      some ((writeTreeSpec tree ++ p ++ [false, false]).map WEvent.wbit ++
        [WEvent.wflush]) ∧
    ((writeTreeSpec tree ++ p ++ [false, false]).map WEvent.wbit ++
      [WEvent.wflush]).count WEvent.wflush = 1 ∧
    emitted ((writeTreeSpec tree ++ p ++ [false, false]).map WEvent.wbit ++
      [WEvent.wflush]) =
      (writeTreeSpec tree ++ p ++ [false, false]) ++
        List.replicate
          ((8 - (writeTreeSpec tree ++ p ++ [false, false]).length % 8) % 8) false := by
  refine ⟨compress_some tree input p hp, ?_, emitted_wbits_flush _⟩
  rw [List.count_append, count_wflush_map_wbit]
  rfl

/-- Witness for c4_terminator_and_flush at tree1 with empty input. -/
theorem c4_terminator_and_flush_witness :
    encodePayload (make_encoding_table tree1 []) [] = some [] ∧
      (compress tree1 [] =
        some ((writeTreeSpec tree1 ++ [] ++ [false, false]).map WEvent.wbit ++
          [WEvent.wflush]) ∧
      ((writeTreeSpec tree1 ++ [] ++ [false, false]).map WEvent.wbit ++
        [WEvent.wflush]).count WEvent.wflush = 1 ∧
      emitted ((writeTreeSpec tree1 ++ [] ++ [false, false]).map WEvent.wbit ++
        [WEvent.wflush]) =
        (writeTreeSpec tree1 ++ [] ++ [false, false]) ++
          List.replicate
            ((8 - (writeTreeSpec tree1 ++ [] ++ [false, false]).length % 8) % 8) false) :=
  ⟨rfl, c4_terminator_and_flush tree1 [] [] rfl⟩

/-- C5: for every tree and every writer state, write_tree appends exactly
the bits of the depth-first left-then-right grammar given by
writeTreeSpec (bit 1 then left then right for a branch, bits 0 0 for the
end-marker leaf, bits 0 1 then the 8-bit symbol for a symbol leaf), and
it never calls flush: the number of flush events in the trace is
unchanged. -/
theorem c5_write_tree_grammar (t : HTree) (w : List WEvent) :
    write_tree t w = w ++ (writeTreeSpec t).map WEvent.wbit ∧
      (write_tree t w).count WEvent.wflush = w.count WEvent.wflush := by
  refine ⟨write_tree_eq t w, ?_⟩
  rw [write_tree_eq, List.count_append, count_wflush_map_wbit]
  exact Nat.add_zero _

/-- C6: truncating a tree description to any strict initial segment
(including the empty stream, k = 0) makes read_tree raise end-of-data
(none), and the error propagates out of decompress, which also returns
none rather than any substitute tree or output. -/
theorem c6_truncated_tree (t : HTree) (hwf : wellFormed t = true) (k : Nat)
    (hk : k < (writeTreeSpec t).length) :
    read_tree (List.take k (writtenBits (write_tree t []))) = none ∧
      decompress (List.take k (writtenBits (write_tree t []))) = none := by
  have hwt : writtenBits (write_tree t []) = writeTreeSpec t := by
    rw [write_tree_eq, List.nil_append]
    simpa [writtenBits_nil] using writtenBits_map_wbit (writeTreeSpec t) []
  rw [hwt]
  have hnone : read_tree (List.take k (writeTreeSpec t)) = none := by
    cases hr : read_tree (List.take k (writeTreeSpec t)) with
    | none => rfl
    | some pr =>
        obtain ⟨t2, rest⟩ := pr
        obtain ⟨hb, hw2⟩ := read_tree_complete _ t2 rest hr
        have hsplit : writeTreeSpec t2 ++ (rest ++ List.drop k (writeTreeSpec t)) =
            writeTreeSpec t := by
          rw [← List.append_assoc, ← hb, List.take_append_drop]
        have h2 := read_tree_writeTreeSpec t2 hw2 (rest ++ List.drop k (writeTreeSpec t))
        rw [hsplit] at h2
        have h4 : read_tree (writeTreeSpec t) = some (t, []) := by
          have h5 := read_tree_writeTreeSpec t hwf []
          simpa using h5
        rw [h4] at h2
        obtain ⟨ht2, hu⟩ := Prod.mk.inj (Option.some.inj h2)
        have hd : List.drop k (writeTreeSpec t) = [] :=
          (List.append_eq_nil.mp hu.symm).2
        have hge : (writeTreeSpec t).length ≤ k := by
          have := congrArg List.length hd
          simp [List.length_drop] at this
          omega
        omega
  refine ⟨hnone, ?_⟩
  simp only [decompress]
  rw [hnone]

/-- Witness for c6_truncated_tree: the first three bits of tree1's
13-bit description do not parse. -/
theorem c6_truncated_tree_witness :
    wellFormed tree1 = true ∧ 3 < (writeTreeSpec tree1).length ∧
      read_tree (List.take 3 (writtenBits (write_tree tree1 []))) = none ∧
      decompress (List.take 3 (writtenBits (write_tree tree1 []))) = none :=
  ⟨by decide, by decide,
    (c6_truncated_tree tree1 (by decide) 3 (by decide)).1,
    (c6_truncated_tree tree1 (by decide) 3 (by decide)).2⟩

/-- C7: for a tree whose root is a branch, if the stream runs out while
decode_byte is still descending (never reaching a leaf), decode_byte
returns no value instead of raising, and decompress treats this exactly
like an explicit end marker: the loop stops, nothing is written, the
output is flushed, and no error is raised. -/
theorem c7_eof_mid_descent (l r : HTree) (bits stream : List Bool)
    (hex : exhaustsMidDescent (HTree.branch l r) bits = true)
    (hrt : read_tree stream = some (HTree.branch l r, bits)) :
    decode_byte (HTree.branch l r) bits = (none, []) ∧
      decompress stream = some [WEvent.wflush] := by
  have hd := decode_byte_exhausts (HTree.branch l r) bits hex
  refine ⟨hd, ?_⟩
  simp only [decompress]
  rw [hrt]
  show some (flushW (decodeLoopF (bits.length + 1) (HTree.branch l r) bits [])) =
    some [WEvent.wflush]
  rw [decodeLoopF_stop _ _ _ _ (by rw [hd])]
  rfl

/-- Witness for c7_eof_mid_descent: after tree2's description the stream
holds a single 0 bit, which sends the decoder into tree2's left branch
where the data ends mid-descent. -/
theorem c7_eof_mid_descent_witness :
    exhaustsMidDescent tree2 [false] = true ∧
      read_tree (writeTreeSpec tree2 ++ [false]) = some (tree2, [false]) ∧
      decode_byte tree2 [false] = (none, []) ∧
      decompress (writeTreeSpec tree2 ++ [false]) = some [WEvent.wflush] := by
  refine ⟨by decide, by decide, ?_, ?_⟩
  · exact (c7_eof_mid_descent (HTree.branch (HTree.leaf none) (HTree.leaf (some 65)))
      (HTree.leaf (some 66)) [false] (writeTreeSpec tree2 ++ [false])
      (by decide) (by decide)).1
  · exact (c7_eof_mid_descent (HTree.branch (HTree.leaf none) (HTree.leaf (some 65)))
      (HTree.leaf (some 66)) [false] (writeTreeSpec tree2 ++ [false])
      (by decide) (by decide)).2

/-- C8: if some input byte has no entry in the encoding table built from
the tree, compress fails (the KeyError propagates, modelled as none):
there is no retry, no partial recovery, and the byte is neither silently
encoded nor skipped. -/
theorem c8_unencodable (tree : HTree) (input : List Nat) (b : Nat)
    (hb : b ∈ input) (hlk : List.lookup b (make_encoding_table tree []) = none) :
    compress tree input = none :=
  compress_none tree input (encodePayload_none (make_encoding_table tree []) b input hb hlk)

/-- Witness for c8_unencodable: the end-marker-only tree has an empty
table, so compressing the byte 7 fails. -/
theorem c8_unencodable_witness :
    (7 : Nat) ∈ [7] ∧
      List.lookup 7 (make_encoding_table (HTree.leaf none) []) = none ∧
      compress (HTree.leaf none) [7] = none :=
  ⟨by decide, by decide, c8_unencodable (HTree.leaf none) [7] 7 (by decide) (by decide)⟩

/-- C9 counterexample: tree0 is well-formed, yet decompressing the
compression of the empty input yields [65, 65, 65], not the empty
output: the terminator and padding zeros are decoded as symbol 65
because tree0's all-zeros path does not reach an end-marker leaf. -/
theorem c9_counterexample :
    wellFormed tree0 = true ∧ roundTrip tree0 [] = some [65, 65, 65] ∧
      roundTrip tree0 [] ≠ some [] :=
  ⟨by decide, by decide, by decide⟩

/-- C9 (amended): for every well-formed tree, compressing the empty input
produces exactly the tree description followed by the 2-bit terminator
0 0 followed by zero padding to a byte boundary; and when additionally
the tree's leftmost leaf is the end marker, decompressing that stream
yields an empty output.  (As originally stated for every well-formed
tree, the decompression half is false: see the counterexample.) -/
theorem c9_empty_input (tree : HTree) (hwf : wellFormed tree = true) :
    compress tree [] =
      some ((writeTreeSpec tree ++ [false, false]).map WEvent.wbit ++ [WEvent.wflush]) ∧
      emitted ((writeTreeSpec tree ++ [false, false]).map WEvent.wbit ++ [WEvent.wflush]) =
        (writeTreeSpec tree ++ [false, false]) ++
          List.replicate
            ((8 - (writeTreeSpec tree ++ [false, false]).length % 8) % 8) false ∧
      (leftmostEndMarker tree = true → roundTrip tree [] = some []) := by
  have hc := compress_some tree [] [] rfl
  refine ⟨by simpa using hc, emitted_wbits_flush _, ?_⟩
  intro hlm
  exact roundTrip_correct tree [] hwf hlm (by simp)

/-- Witness for c9_empty_input at tree1. -/
theorem c9_empty_input_witness :
    wellFormed tree1 = true ∧ leftmostEndMarker tree1 = true ∧
      compress tree1 [] =
        some ((writeTreeSpec tree1 ++ [false, false]).map WEvent.wbit ++ [WEvent.wflush]) ∧
      roundTrip tree1 [] = some [] :=
  ⟨by decide, by decide, (c9_empty_input tree1 (by decide)).1,
    (c9_empty_input tree1 (by decide)).2.2 (by decide)⟩

/-- C10: whenever read_tree returns a tree, that tree is well-formed:
every leaf holds either the end marker or an 8-bit value in [0, 255]
(and by construction of the HTree type every branch it builds has
exactly two present children), so the tree decompress hands to
decode_byte always satisfies the data-model invariants. -/
theorem c10_read_tree_wellformed (bits : List Bool) (t : HTree) (rest : List Bool)
    (h : read_tree bits = some (t, rest)) : wellFormed t = true :=
  (read_tree_complete bits t rest h).2

/-- Witness for c10_read_tree_wellformed on the two-bit stream 0 0. -/
theorem c10_read_tree_wellformed_witness :
    read_tree [false, false] = some (HTree.leaf none, []) ∧
      wellFormed (HTree.leaf none) = true :=
  ⟨by decide,
    c10_read_tree_wellformed [false, false] (HTree.leaf none) [] (by decide)⟩
